import Mathlib

/-! Shallow embedding of the DipoleMic tone-burst generator and analyzer
(src/toneBurst.h, src/toneBurst.cpp, src/tbg.cpp, src/tba.cpp).
C++ double values are modelled as real numbers; C++ long and short values
are modelled as unbounded integers (every quantity the claims touch stays
far below the 32-bit bounds the source asserts).  The member numCycle,
a C++ long that is set to 1 and only ever incremented, is modelled as ℕ. -/

namespace DipoleMic

/-- Constant SAMPLE_RATE from toneBurst.h. -/
def SAMPLE_RATE : ℤ := 44100

/-- Constant INTERVAL from toneBurst.h. -/
def INTERVAL : ℤ := 22050

/-- Constant BURST_LENGTH from toneBurst.h. -/
def BURST_LENGTH : ℤ := 100

/-- Constant AMPLITUDE from toneBurst.h. -/
def AMPLITUDE : ℝ := 12000

/-- C++ integral conversion long(x) / short(x): truncation toward zero. -/
noncomputable def intTrunc (x : ℝ) : ℤ := if 0 ≤ x then ⌊x⌋ else ⌈x⌉

/-- The data members of the toneBurst class (toneBurst.h). -/
structure toneBurst where
  sampleRate : ℤ
  duration : ℤ
  interval : ℤ
  burstMin : ℤ
  numBurst : ℤ
  burstCount : ℤ
  numCycle : ℕ
  nominalFreq : ℝ
  actualFreq : ℝ
  startFreq : ℝ
  stopFreq : ℝ
  freqIncr : ℝ
  factor : ℝ
  sweep : Bool
  delay : ℤ
  numAvg : ℤ

/-- The while loop of toneBurst::calc:
while ((sampleRate / nominalFreq) * numCycle < burstMin) numCycle++.
Here rq stands for the quotient sampleRate / nominalFreq.  The extra
conjunct 0 < rq records the termination condition of the C++ loop
(for rq ≤ 0 and a still-unsatisfied bound the source loops forever,
so it has no result to model there). -/
noncomputable def calcLoop (rq m : ℝ) (n : ℕ) : ℕ :=
  if h : 0 < rq ∧ rq * n < m then calcLoop rq m (n + 1) else n
termination_by ⌈m / rq⌉₊ - n
decreasing_by
  have h1 : (n : ℝ) * rq < m := by rw [mul_comm]; exact h.2
  have h2 : (n : ℝ) < m / rq := (lt_div_iff₀ h.1).mpr h1
  have h3 : n < ⌈m / rq⌉₊ := Nat.lt_ceil.mpr h2
  omega

/-- toneBurst::calc (toneBurst.cpp lines 132-145). -/
noncomputable def calcStep (tb : toneBurst) : toneBurst :=
  let n : ℕ := calcLoop ((tb.sampleRate : ℝ) / tb.nominalFreq) (tb.burstMin : ℝ) tb.numCycle
  let d : ℤ := intTrunc (((tb.sampleRate : ℝ) / tb.nominalFreq) * n)
  let af : ℝ := 1 * (tb.sampleRate : ℝ) * n / d
  { tb with numCycle := n, duration := d, actualFreq := af,
            factor := 2 * Real.pi * af / (tb.sampleRate : ℝ) }

/-- The toneBurst default constructor (toneBurst.cpp lines 35-56).  The
member factor is left uninitialized by the C++ constructor body and is
first written by the calc() call at its end; the 0 below is that
don't-care pre-calc value. -/
noncomputable def mkToneBurst : toneBurst :=
  calcStep
    { sampleRate := SAMPLE_RATE, duration := 0, interval := INTERVAL,
      delay := INTERVAL, burstMin := BURST_LENGTH, numBurst := 201,
      burstCount := 0, numAvg := 1, numCycle := 1, nominalFreq := 100,
      actualFreq := 0, startFreq := 100, stopFreq := 10000, freqIncr := 1,
      factor := 0, sweep := true }

/-- toneBurst::init (toneBurst.cpp lines 59-76). -/
def init (tb : toneBurst) (theSweep : Bool) : toneBurst :=
  if theSweep then
    { tb with sweep := true, numBurst := 201, startFreq := 100, stopFreq := 10000 }
  else
    { tb with sweep := false, numBurst := 72, startFreq := 1000, stopFreq := 1000,
              interval := 2 * INTERVAL }

/-- toneBurst::reset (toneBurst.cpp lines 79-105). -/
noncomputable def reset (tb : toneBurst) : toneBurst :=
  let t1 : toneBurst :=
    { tb with numCycle := 1, burstCount := tb.numBurst, nominalFreq := tb.startFreq }
  let t2 : toneBurst :=
    if t1.sweep then
      { t1 with numBurst := 201, stopFreq := 10000,
                freqIncr := ((10000 : ℝ) / t1.startFreq) ^ ((1 : ℝ) / (201 - 1)) }
    else
      { t1 with numBurst := 72, stopFreq := t1.startFreq, freqIncr := 1 }
  calcStep t2

/-- toneBurst::next (toneBurst.cpp lines 108-122); the Bool is the C++
return value, the toneBurst is the object state after the call. -/
noncomputable def next (tb : toneBurst) : toneBurst × Bool :=
  if 0 < tb.burstCount then
    let t : toneBurst :=
      if tb.sweep then calcStep { tb with nominalFreq := tb.nominalFreq * tb.freqIncr }
      else tb
    ({ t with burstCount := t.burstCount - 1 }, true)
  else (tb, false)

/-- The object state after a call to toneBurst::next. -/
noncomputable def nextState (tb : toneBurst) : toneBurst := (next tb).1

/-- toneBurst::good (toneBurst.cpp lines 125-129). -/
def good (tb : toneBurst) : Bool := decide (0 < tb.burstCount)

/-- toneBurst::getSize (toneBurst.cpp lines 264-269). -/
def getSize (tb : toneBurst) : ℤ :=
  2 * 2 * (tb.interval * tb.numAvg * tb.numBurst + tb.delay)

/-- riffChunk::setSize (tbg.cpp lines 149-154): the chunkSize field it stores. -/
def riffChunkSize (theSize : ℤ) : ℤ := theSize + 36

/-- dataChunk::setSize (tbg.cpp lines 171-175): the chunkSize field it stores. -/
def dataChunkSize (theSize : ℤ) : ℤ := theSize

/-- The sample value toneBurst::write computes at loop index j
(toneBurst.cpp lines 242-254): a raised cosine with inverted second
harmonic scaled to AMPLITUDE and truncated to a 16-bit word inside the
burst, silence after it.  The value does not depend on the averaging
index i. -/
noncomputable def burstSample (tb : toneBurst) (j : ℕ) : ℤ :=
  if (j : ℤ) < tb.duration then
    intTrunc ((Real.cos (tb.factor * j) - Real.cos (2 * tb.factor * j)) * AMPLITUDE)
  else 0

/-- The two-channel sample stream toneBurst::write emits, indexed by the
averaging repetition i and the in-interval position j; write puts the
same word on both channels. -/
noncomputable def writeOutput (tb : toneBurst) : ℕ → ℕ → ℤ × ℤ :=
  fun _ j => (burstSample tb j, burstSample tb j)

/-- The correlation coefficient exp(cfactor·j) with cfactor = i·factor
from toneBurst::read (toneBurst.cpp lines 180, 195, 203). -/
noncomputable def ccoeff (tb : toneBurst) (j : ℕ) : ℂ :=
  Complex.exp (Complex.I * (tb.factor : ℂ) * (j : ℂ))

/-- Accumulated channel-1 burst response sum1 of toneBurst::read
(toneBurst.cpp lines 183-198): over all averaging repetitions i and
in-interval positions j, samples inside the burst window weighted by
the correlation coefficient.  The argument input gives the two-channel
sample pair the stream delivers at repetition i, position j. -/
noncomputable def readSum1raw (tb : toneBurst) (input : ℕ → ℕ → ℤ × ℤ) : ℂ :=
  ∑ i in Finset.range tb.numAvg.toNat, ∑ j in Finset.range tb.interval.toNat,
    if (j : ℤ) < tb.duration then ((input i j).1 : ℂ) * ccoeff tb j else 0

/-- Accumulated channel-2 burst response sum2 of toneBurst::read. -/
noncomputable def readSum2raw (tb : toneBurst) (input : ℕ → ℕ → ℤ × ℤ) : ℂ :=
  ∑ i in Finset.range tb.numAvg.toNat, ∑ j in Finset.range tb.interval.toNat,
    if (j : ℤ) < tb.duration then ((input i j).2 : ℂ) * ccoeff tb j else 0

/-- Accumulated channel-1 background sum3 of toneBurst::read
(toneBurst.cpp lines 200-206), guarded by
(j < interval − duration) && (j ≥ interval − 2·duration). -/
noncomputable def readSum3raw (tb : toneBurst) (input : ℕ → ℕ → ℤ × ℤ) : ℂ :=
  ∑ i in Finset.range tb.numAvg.toNat, ∑ j in Finset.range tb.interval.toNat,
    if (j : ℤ) < tb.interval - tb.duration ∧ tb.interval - 2 * tb.duration ≤ (j : ℤ) then
      ((input i j).1 : ℂ) * ccoeff tb j
    else 0

/-- Accumulated channel-2 background sum4 of toneBurst::read. -/
noncomputable def readSum4raw (tb : toneBurst) (input : ℕ → ℕ → ℤ × ℤ) : ℂ :=
  ∑ i in Finset.range tb.numAvg.toNat, ∑ j in Finset.range tb.interval.toNat,
    if (j : ℤ) < tb.interval - tb.duration ∧ tb.interval - 2 * tb.duration ≤ (j : ℤ) then
      ((input i j).2 : ℂ) * ccoeff tb j
    else 0

/-- The normalization divisor duration * numAvg * AMPLITUDE / 2.0 of
toneBurst::read (toneBurst.cpp lines 210-213). -/
noncomputable def normFactor (tb : toneBurst) : ℝ :=
  ((tb.duration * tb.numAvg : ℤ) : ℝ) * AMPLITUDE / 2

/-- sum1 after normalization, as reported by toneBurst::read. -/
noncomputable def readSum1 (tb : toneBurst) (input : ℕ → ℕ → ℤ × ℤ) : ℂ :=
  readSum1raw tb input / ((normFactor tb : ℝ) : ℂ)

/-- sum2 after normalization, as reported by toneBurst::read. -/
noncomputable def readSum2 (tb : toneBurst) (input : ℕ → ℕ → ℤ × ℤ) : ℂ :=
  readSum2raw tb input / ((normFactor tb : ℝ) : ℂ)

/-- The set of in-interval loop indices j at which toneBurst::read
accumulates the background sums sum3/sum4. -/
def bgWindow (tb : toneBurst) : Finset ℕ :=
  (Finset.range tb.interval.toNat).filter
    (fun j => (j : ℤ) < tb.interval - tb.duration ∧ tb.interval - 2 * tb.duration ≤ (j : ℤ))

/-- The set of in-interval loop indices j at which toneBurst::read
accumulates the signal sums sum1/sum2 (the burst window). -/
def sigWindow (tb : toneBurst) : Finset ℕ :=
  (Finset.range tb.interval.toNat).filter (fun j => (j : ℤ) < tb.duration)

/-- One iteration of the write loop body of toneBurst::write, threading
the object state (which the body never assigns) and the emitted
two-channel sample pairs. -/
noncomputable def writeStep (s : toneBurst × List (ℤ × ℤ)) (j : ℕ) : toneBurst × List (ℤ × ℤ) :=
  (s.1, s.2 ++ [(burstSample s.1 j, burstSample s.1 j)])

/-- toneBurst::write as a state-threading run over its two nested loops
(averaging repetitions, then interval positions). -/
noncomputable def writeRun (tb : toneBurst) : toneBurst × List (ℤ × ℤ) :=
  (List.range tb.numAvg.toNat).foldl
    (fun s _ => (List.range s.1.interval.toNat).foldl writeStep s) (tb, [])

/-- The four local correlator accumulators of toneBurst::read. -/
structure corrSums where
  sum1 : ℂ
  sum2 : ℂ
  sum3 : ℂ
  sum4 : ℂ

/-- One iteration of the read loop body of toneBurst::read, threading the
object state (which the body never assigns) and the four accumulators. -/
noncomputable def readStep (input : ℕ → ℕ → ℤ × ℤ) (i : ℕ)
    (s : toneBurst × corrSums) (j : ℕ) : toneBurst × corrSums :=
  let a1 : ℤ := (input i j).1
  let a2 : ℤ := (input i j).2
  let c : ℂ := ccoeff s.1 j
  (s.1,
    { sum1 := if (j : ℤ) < s.1.duration then s.2.sum1 + a1 * c else s.2.sum1,
      sum2 := if (j : ℤ) < s.1.duration then s.2.sum2 + a2 * c else s.2.sum2,
      sum3 := if (j : ℤ) < s.1.interval - s.1.duration ∧
          s.1.interval - 2 * s.1.duration ≤ (j : ℤ) then s.2.sum3 + a1 * c else s.2.sum3,
      sum4 := if (j : ℤ) < s.1.interval - s.1.duration ∧
          s.1.interval - 2 * s.1.duration ≤ (j : ℤ) then s.2.sum4 + a2 * c else s.2.sum4 })

/-- toneBurst::read as a state-threading run over its two nested loops. -/
noncomputable def readRun (tb : toneBurst) (input : ℕ → ℕ → ℤ × ℤ) : toneBurst × corrSums :=
  (List.range tb.numAvg.toNat).foldl
    (fun s i => (List.range s.1.interval.toNat).foldl (readStep input i) s)
    (tb, ⟨0, 0, 0, 0⟩)

/-- Byte count emitted by the generator's burst loop in tbg.cpp lines
131-142: while good(), one write() call emits numAvg·interval sample
pairs of 2+2 bytes, then next() steps the state. -/
noncomputable def burstLoopBytes (tb : toneBurst) : ℕ :=
  if h : 0 < tb.burstCount then
    4 * tb.numAvg.toNat * tb.interval.toNat + burstLoopBytes (nextState tb)
  else 0
termination_by tb.burstCount.toNat
decreasing_by
  have hd : (nextState tb).burstCount = tb.burstCount - 1 := by
    unfold nextState next
    rw [if_pos h]
    rcases Bool.eq_false_or_eq_true tb.sweep with hs | hs
    · rw [if_pos hs]; rfl
    · rw [if_neg (by simp [hs] : ¬ tb.sweep = true)]
  omega

/-- Byte count of the whole sample stream the generator writes after the
44-byte header (tbg.cpp lines 121-142): 2+2 bytes of silence for each of
delay positions, then the burst loop entered through reset(). -/
noncomputable def genDataBytes (tb : toneBurst) : ℕ :=
  4 * tb.delay.toNat + burstLoopBytes (reset tb)

/-! Projection lemmas: fields calc() does not assign. -/

@[simp] theorem calcStep_sampleRate (tb : toneBurst) : (calcStep tb).sampleRate = tb.sampleRate := rfl

@[simp] theorem calcStep_interval (tb : toneBurst) : (calcStep tb).interval = tb.interval := rfl

@[simp] theorem calcStep_burstMin (tb : toneBurst) : (calcStep tb).burstMin = tb.burstMin := rfl

@[simp] theorem calcStep_numBurst (tb : toneBurst) : (calcStep tb).numBurst = tb.numBurst := rfl

@[simp] theorem calcStep_burstCount (tb : toneBurst) : (calcStep tb).burstCount = tb.burstCount := rfl

@[simp] theorem calcStep_nominalFreq (tb : toneBurst) : (calcStep tb).nominalFreq = tb.nominalFreq := rfl

@[simp] theorem calcStep_startFreq (tb : toneBurst) : (calcStep tb).startFreq = tb.startFreq := rfl

@[simp] theorem calcStep_stopFreq (tb : toneBurst) : (calcStep tb).stopFreq = tb.stopFreq := rfl

@[simp] theorem calcStep_freqIncr (tb : toneBurst) : (calcStep tb).freqIncr = tb.freqIncr := rfl

@[simp] theorem calcStep_sweep (tb : toneBurst) : (calcStep tb).sweep = tb.sweep := rfl

@[simp] theorem calcStep_delay (tb : toneBurst) : (calcStep tb).delay = tb.delay := rfl

@[simp] theorem calcStep_numAvg (tb : toneBurst) : (calcStep tb).numAvg = tb.numAvg := rfl

/-- The fields calc() does assign: numCycle. -/
theorem calcStep_numCycle (tb : toneBurst) :
    (calcStep tb).numCycle =
      calcLoop ((tb.sampleRate : ℝ) / tb.nominalFreq) (tb.burstMin : ℝ) tb.numCycle := rfl

/-- The fields calc() does assign: duration. -/
theorem calcStep_duration (tb : toneBurst) :
    (calcStep tb).duration =
      intTrunc (((tb.sampleRate : ℝ) / tb.nominalFreq) * (calcStep tb).numCycle) := rfl

/-- The fields calc() does assign: actualFreq. -/
theorem calcStep_actualFreq (tb : toneBurst) :
    (calcStep tb).actualFreq =
      1 * (tb.sampleRate : ℝ) * (calcStep tb).numCycle / (calcStep tb).duration := rfl

/-- The fields calc() does assign: factor. -/
theorem calcStep_factor (tb : toneBurst) :
    (calcStep tb).factor =
      2 * Real.pi * (calcStep tb).actualFreq / (tb.sampleRate : ℝ) := rfl

/-! Basic facts about the C++ truncation conversion. -/

theorem intTrunc_intCast (z : ℤ) : intTrunc (z : ℝ) = z := by
  unfold intTrunc; split_ifs <;> simp

theorem intTrunc_of_nonneg {x : ℝ} (h : 0 ≤ x) : intTrunc x = ⌊x⌋ := by
  unfold intTrunc; simp [h]

theorem abs_intTrunc_sub_le (x : ℝ) : |((intTrunc x : ℤ) : ℝ) - x| ≤ 1 := by
  unfold intTrunc
  split_ifs with h
  · have h1 : (⌊x⌋ : ℝ) ≤ x := Int.floor_le x
    have h2 : x - 1 < (⌊x⌋ : ℝ) := Int.sub_one_lt_floor x
    rw [abs_le]; constructor <;> linarith
  · have h1 : x ≤ (⌈x⌉ : ℝ) := Int.le_ceil x
    have h2 : (⌈x⌉ : ℝ) < x + 1 := Int.ceil_lt_add_one x
    rw [abs_le]; constructor <;> linarith

/-! Closed form of the calc() search loop for a positive quotient. -/

theorem calcLoop_eq (rq m : ℝ) (hr : 0 < rq) (n : ℕ) :
    calcLoop rq m n = max n ⌈m / rq⌉₊ := by
  have H : ∀ k n0 : ℕ, ⌈m / rq⌉₊ - n0 ≤ k → calcLoop rq m n0 = max n0 ⌈m / rq⌉₊ := by
    intro k
    induction k with
    | zero =>
      intro n0 hn0
      rw [calcLoop]
      have hnot : ¬ (0 < rq ∧ rq * n0 < m) := by
        rintro ⟨-, hlt⟩
        have h1 : (n0 : ℝ) * rq < m := by rw [mul_comm]; exact hlt
        have h2 : (n0 : ℝ) < m / rq := (lt_div_iff₀ hr).mpr h1
        have h3 : n0 < ⌈m / rq⌉₊ := Nat.lt_ceil.mpr h2
        omega
      rw [dif_neg hnot]
      omega
    | succ k ih =>
      intro n0 hn0
      rw [calcLoop]
      split_ifs with h
      · have h1 : (n0 : ℝ) * rq < m := by rw [mul_comm]; exact h.2
        have h2 : (n0 : ℝ) < m / rq := (lt_div_iff₀ hr).mpr h1
        have h3 : n0 < ⌈m / rq⌉₊ := Nat.lt_ceil.mpr h2
        rw [ih (n0 + 1) (by omega)]
        omega
      · push_neg at h
        have h1 : m ≤ rq * n0 := h hr
        have h2 : m / rq ≤ (n0 : ℝ) := (div_le_iff₀ hr).mpr (by rw [mul_comm]; exact h1)
        have h3 : ⌈m / rq⌉₊ ≤ n0 := Nat.ceil_le.mpr h2
        omega
  exact H (⌈m / rq⌉₊ - n) n le_rfl

/-- The value the calc() loop stops at satisfies the loop's exit bound. -/
theorem calcLoop_sat (rq m : ℝ) (hr : 0 < rq) (n : ℕ) :
    m ≤ rq * (calcLoop rq m n) := by
  rw [calcLoop_eq rq m hr n]
  have h1 : m / rq ≤ (⌈m / rq⌉₊ : ℝ) := Nat.le_ceil _
  have h2 : (⌈m / rq⌉₊ : ℝ) ≤ ((max n ⌈m / rq⌉₊ : ℕ) : ℝ) := by
    exact_mod_cast Nat.le_max_right n _
  have := (div_le_iff₀ hr).mp (le_trans h1 h2)
  linarith [this]

/-! Case shapes of next() and reset(). -/

theorem next_pos_sweep (tb : toneBurst) (h : 0 < tb.burstCount) (hs : tb.sweep = true) :
    next tb =
      ({ calcStep { tb with nominalFreq := tb.nominalFreq * tb.freqIncr } with
          burstCount := tb.burstCount - 1 }, true) := by
  unfold next
  rw [if_pos h, if_pos hs]
  rfl

theorem next_pos_polar (tb : toneBurst) (h : 0 < tb.burstCount) (hs : tb.sweep = false) :
    next tb = ({ tb with burstCount := tb.burstCount - 1 }, true) := by
  unfold next
  rw [if_pos h, if_neg (by simp [hs] : ¬ tb.sweep = true)]

theorem next_nonpos (tb : toneBurst) (h : ¬ 0 < tb.burstCount) : next tb = (tb, false) := by
  unfold next
  rw [if_neg h]

theorem nextState_pos_polar (tb : toneBurst) (h : 0 < tb.burstCount) (hs : tb.sweep = false) :
    nextState tb = { tb with burstCount := tb.burstCount - 1 } := by
  unfold nextState
  rw [next_pos_polar tb h hs]

theorem reset_of_sweep (tb : toneBurst) (hsw : tb.sweep = true) :
    reset tb = calcStep
      { tb with numCycle := 1, burstCount := tb.numBurst, nominalFreq := tb.startFreq,
                numBurst := 201, stopFreq := 10000,
                freqIncr := ((10000 : ℝ) / tb.startFreq) ^ ((1 : ℝ) / (201 - 1)) } := by
  simp only [reset, hsw]
  rfl

theorem reset_of_polar (tb : toneBurst) (hsw : tb.sweep = false) :
    reset tb = calcStep
      { tb with numCycle := 1, burstCount := tb.numBurst, nominalFreq := tb.startFreq,
                numBurst := 72, stopFreq := tb.startFreq, freqIncr := 1 } := by
  simp only [reset, hsw]
  rfl

/-! Fields reset() and next() never assign. -/

@[simp] theorem reset_sampleRate (tb : toneBurst) : (reset tb).sampleRate = tb.sampleRate := by
  rcases Bool.eq_false_or_eq_true tb.sweep with h | h
  · rw [reset_of_sweep tb h]; rfl
  · rw [reset_of_polar tb h]; rfl

@[simp] theorem reset_interval (tb : toneBurst) : (reset tb).interval = tb.interval := by
  rcases Bool.eq_false_or_eq_true tb.sweep with h | h
  · rw [reset_of_sweep tb h]; rfl
  · rw [reset_of_polar tb h]; rfl

@[simp] theorem reset_burstMin (tb : toneBurst) : (reset tb).burstMin = tb.burstMin := by
  rcases Bool.eq_false_or_eq_true tb.sweep with h | h
  · rw [reset_of_sweep tb h]; rfl
  · rw [reset_of_polar tb h]; rfl

@[simp] theorem reset_delay (tb : toneBurst) : (reset tb).delay = tb.delay := by
  rcases Bool.eq_false_or_eq_true tb.sweep with h | h
  · rw [reset_of_sweep tb h]; rfl
  · rw [reset_of_polar tb h]; rfl

@[simp] theorem reset_numAvg (tb : toneBurst) : (reset tb).numAvg = tb.numAvg := by
  rcases Bool.eq_false_or_eq_true tb.sweep with h | h
  · rw [reset_of_sweep tb h]; rfl
  · rw [reset_of_polar tb h]; rfl

@[simp] theorem reset_sweep (tb : toneBurst) : (reset tb).sweep = tb.sweep := by
  rcases Bool.eq_false_or_eq_true tb.sweep with h | h
  · rw [reset_of_sweep tb h]; rfl
  · rw [reset_of_polar tb h]; rfl

@[simp] theorem reset_startFreq (tb : toneBurst) : (reset tb).startFreq = tb.startFreq := by
  rcases Bool.eq_false_or_eq_true tb.sweep with h | h
  · rw [reset_of_sweep tb h]; rfl
  · rw [reset_of_polar tb h]; rfl

@[simp] theorem reset_nominalFreq (tb : toneBurst) : (reset tb).nominalFreq = tb.startFreq := by
  rcases Bool.eq_false_or_eq_true tb.sweep with h | h
  · rw [reset_of_sweep tb h]; rfl
  · rw [reset_of_polar tb h]; rfl

@[simp] theorem reset_burstCount (tb : toneBurst) : (reset tb).burstCount = tb.numBurst := by
  rcases Bool.eq_false_or_eq_true tb.sweep with h | h
  · rw [reset_of_sweep tb h]; rfl
  · rw [reset_of_polar tb h]; rfl

@[simp] theorem nextState_sampleRate (tb : toneBurst) :
    (nextState tb).sampleRate = tb.sampleRate := by
  unfold nextState
  by_cases h : 0 < tb.burstCount
  · rcases Bool.eq_false_or_eq_true tb.sweep with hs | hs
    · rw [next_pos_sweep tb h hs]; rfl
    · rw [next_pos_polar tb h hs]
  · rw [next_nonpos tb h]

@[simp] theorem nextState_interval (tb : toneBurst) : (nextState tb).interval = tb.interval := by
  unfold nextState
  by_cases h : 0 < tb.burstCount
  · rcases Bool.eq_false_or_eq_true tb.sweep with hs | hs
    · rw [next_pos_sweep tb h hs]; rfl
    · rw [next_pos_polar tb h hs]
  · rw [next_nonpos tb h]

@[simp] theorem nextState_burstMin (tb : toneBurst) : (nextState tb).burstMin = tb.burstMin := by
  unfold nextState
  by_cases h : 0 < tb.burstCount
  · rcases Bool.eq_false_or_eq_true tb.sweep with hs | hs
    · rw [next_pos_sweep tb h hs]; rfl
    · rw [next_pos_polar tb h hs]
  · rw [next_nonpos tb h]

@[simp] theorem nextState_numBurst (tb : toneBurst) : (nextState tb).numBurst = tb.numBurst := by
  unfold nextState
  by_cases h : 0 < tb.burstCount
  · rcases Bool.eq_false_or_eq_true tb.sweep with hs | hs
    · rw [next_pos_sweep tb h hs]; rfl
    · rw [next_pos_polar tb h hs]
  · rw [next_nonpos tb h]

@[simp] theorem nextState_startFreq (tb : toneBurst) : (nextState tb).startFreq = tb.startFreq := by
  unfold nextState
  by_cases h : 0 < tb.burstCount
  · rcases Bool.eq_false_or_eq_true tb.sweep with hs | hs
    · rw [next_pos_sweep tb h hs]; rfl
    · rw [next_pos_polar tb h hs]
  · rw [next_nonpos tb h]

@[simp] theorem nextState_stopFreq (tb : toneBurst) : (nextState tb).stopFreq = tb.stopFreq := by
  unfold nextState
  by_cases h : 0 < tb.burstCount
  · rcases Bool.eq_false_or_eq_true tb.sweep with hs | hs
    · rw [next_pos_sweep tb h hs]; rfl
    · rw [next_pos_polar tb h hs]
  · rw [next_nonpos tb h]

@[simp] theorem nextState_freqIncr (tb : toneBurst) : (nextState tb).freqIncr = tb.freqIncr := by
  unfold nextState
  by_cases h : 0 < tb.burstCount
  · rcases Bool.eq_false_or_eq_true tb.sweep with hs | hs
    · rw [next_pos_sweep tb h hs]; rfl
    · rw [next_pos_polar tb h hs]
  · rw [next_nonpos tb h]

@[simp] theorem nextState_sweep (tb : toneBurst) : (nextState tb).sweep = tb.sweep := by
  unfold nextState
  by_cases h : 0 < tb.burstCount
  · rcases Bool.eq_false_or_eq_true tb.sweep with hs | hs
    · rw [next_pos_sweep tb h hs]; rfl
    · rw [next_pos_polar tb h hs]
  · rw [next_nonpos tb h]

@[simp] theorem nextState_delay (tb : toneBurst) : (nextState tb).delay = tb.delay := by
  unfold nextState
  by_cases h : 0 < tb.burstCount
  · rcases Bool.eq_false_or_eq_true tb.sweep with hs | hs
    · rw [next_pos_sweep tb h hs]; rfl
    · rw [next_pos_polar tb h hs]
  · rw [next_nonpos tb h]

@[simp] theorem nextState_numAvg (tb : toneBurst) : (nextState tb).numAvg = tb.numAvg := by
  unfold nextState
  by_cases h : 0 < tb.burstCount
  · rcases Bool.eq_false_or_eq_true tb.sweep with hs | hs
    · rw [next_pos_sweep tb h hs]; rfl
    · rw [next_pos_polar tb h hs]
  · rw [next_nonpos tb h]

theorem nextState_burstCount (tb : toneBurst) (h : 0 < tb.burstCount) :
    (nextState tb).burstCount = tb.burstCount - 1 := by
  unfold nextState
  rcases Bool.eq_false_or_eq_true tb.sweep with hs | hs
  · rw [next_pos_sweep tb h hs]
  · rw [next_pos_polar tb h hs]

/-- C5: for every positive nominalFrequency (with the program's positive
sampleRate and burstMin), calc() terminates and yields cyclesPerBurst ≥ 1
and burstDurationSamples ≥ minBurstSamples, although the duration is the
truncation of (sampleRate/nominalFreq)·cyclesPerBurst. -/
theorem calcStep_yields_bounds (tb : toneBurst) (hR : 0 < tb.sampleRate)
    (hf : 0 < tb.nominalFreq) (hm : 0 < tb.burstMin) :
    1 ≤ (calcStep tb).numCycle ∧ tb.burstMin ≤ (calcStep tb).duration := by
  have hRr : (0 : ℝ) < (tb.sampleRate : ℝ) := by exact_mod_cast hR
  have hmr : (0 : ℝ) < (tb.burstMin : ℝ) := by exact_mod_cast hm
  have hrq : 0 < (tb.sampleRate : ℝ) / tb.nominalFreq := div_pos hRr hf
  have hcyc : 1 ≤ (calcStep tb).numCycle := by
    rw [calcStep_numCycle, calcLoop_eq _ _ hrq]
    have : 0 < ⌈(tb.burstMin : ℝ) / ((tb.sampleRate : ℝ) / tb.nominalFreq)⌉₊ :=
      Nat.ceil_pos.mpr (div_pos hmr hrq)
    omega
  refine ⟨hcyc, ?_⟩
  have hsat : (tb.burstMin : ℝ) ≤
      ((tb.sampleRate : ℝ) / tb.nominalFreq) * (calcStep tb).numCycle := by
    rw [calcStep_numCycle]
    exact calcLoop_sat _ _ hrq _
  have hpos : (0 : ℝ) ≤ ((tb.sampleRate : ℝ) / tb.nominalFreq) * (calcStep tb).numCycle := by
    linarith
  rw [calcStep_duration, intTrunc_of_nonneg hpos]
  exact Int.le_floor.mpr hsat

/-- Witness for C5 at the constructor-default state (nominalFreq 100). -/
theorem calcStep_yields_bounds_witness :
    0 < mkToneBurst.sampleRate ∧ 0 < mkToneBurst.nominalFreq ∧ 0 < mkToneBurst.burstMin ∧
      (1 ≤ (calcStep mkToneBurst).numCycle ∧
        mkToneBurst.burstMin ≤ (calcStep mkToneBurst).duration) := by
  have h1 : 0 < mkToneBurst.sampleRate := by simp [mkToneBurst, SAMPLE_RATE]
  have h2 : 0 < mkToneBurst.nominalFreq := by simp [mkToneBurst]
  have h3 : 0 < mkToneBurst.burstMin := by simp [mkToneBurst, BURST_LENGTH]
  exact ⟨h1, h2, h3, calcStep_yields_bounds mkToneBurst h1 h2 h3⟩

/-- C8: good() is false exactly when burstCount is 0 (burstCount is never
negative in any reachable state), and next() in the exhausted state
returns false and leaves the whole object unchanged. -/
theorem good_next_exhausted (tb : toneBurst) (h : 0 ≤ tb.burstCount) :
    (good tb = false ↔ tb.burstCount = 0) ∧
      (tb.burstCount = 0 → next tb = (tb, false)) := by
  constructor
  · unfold good
    simp only [decide_eq_false_iff_not, not_lt]
    omega
  · intro h0
    unfold next
    rw [h0]
    simp

/-- Witness for C8: the constructor-default state has burstCount = 0. -/
theorem good_next_exhausted_witness :
    0 ≤ mkToneBurst.burstCount ∧
      ((good mkToneBurst = false ↔ mkToneBurst.burstCount = 0) ∧
        (mkToneBurst.burstCount = 0 → next mkToneBurst = (mkToneBurst, false))) := by
  have h : 0 ≤ mkToneBurst.burstCount := by simp [mkToneBurst]
  exact ⟨h, good_next_exhausted mkToneBurst h⟩

/-- C2 (amended): with intervalSamples 22050, averagingCount 1,
totalBurstCount 201 and delaySamples 22050, getSize() returns
2·2·(22050·1·201 + 22050) = 17,816,400 bytes and the RIFF descriptor size
field is that plus 36 (= 17,816,436); the figure 1,776,600 in the claim
is a miscalculation of the same formula. -/
theorem getSize_scenario (tb : toneBurst) (h1 : tb.interval = 22050) (h2 : tb.numAvg = 1)
    (h3 : tb.numBurst = 201) (h4 : tb.delay = 22050) :
    getSize tb = 17816400 ∧ riffChunkSize (getSize tb) = 17816400 + 36 := by
  unfold getSize riffChunkSize
  rw [h1, h2, h3, h4]
  norm_num

/-- Witness for C2 at the constructor-default state, which has exactly the
scenario's parameter values. -/
theorem getSize_scenario_witness :
    mkToneBurst.interval = 22050 ∧ mkToneBurst.numAvg = 1 ∧ mkToneBurst.numBurst = 201 ∧
      mkToneBurst.delay = 22050 ∧
      (getSize mkToneBurst = 17816400 ∧
        riffChunkSize (getSize mkToneBurst) = 17816400 + 36) := by
  have h1 : mkToneBurst.interval = 22050 := by simp [mkToneBurst, INTERVAL]
  have h2 : mkToneBurst.numAvg = 1 := by simp [mkToneBurst]
  have h3 : mkToneBurst.numBurst = 201 := by simp [mkToneBurst]
  have h4 : mkToneBurst.delay = 22050 := by simp [mkToneBurst, INTERVAL]
  exact ⟨h1, h2, h3, h4, getSize_scenario mkToneBurst h1 h2 h3 h4⟩

/-- Counterexample for C2 as stated: at the scenario parameters (held by
the constructor-default state) getSize() is not 1,776,600. -/
theorem getSize_scenario_counterexample :
    mkToneBurst.interval = 22050 ∧ mkToneBurst.numAvg = 1 ∧ mkToneBurst.numBurst = 201 ∧
      mkToneBurst.delay = 22050 ∧ getSize mkToneBurst ≠ 1776600 := by
  refine ⟨by simp [mkToneBurst, INTERVAL], by simp [mkToneBurst], by simp [mkToneBurst],
    by simp [mkToneBurst, INTERVAL], ?_⟩
  unfold getSize
  simp [mkToneBurst, INTERVAL]

/-- Iterating next() in polar mode only counts down burstCount. -/
theorem nextState_iterate_polar (s : toneBurst) (hs : s.sweep = false) (k : ℕ)
    (hk : (k : ℤ) ≤ s.burstCount) :
    nextState^[k] s = { s with burstCount := s.burstCount - k } := by
  induction k with
  | zero => simp only [Function.iterate_zero, id_eq, Nat.cast_zero, sub_zero]
  | succ k ih =>
    have hk' : (k : ℤ) ≤ s.burstCount := by push_cast at hk ⊢; omega
    rw [Function.iterate_succ_apply', ih hk']
    have hpos : 0 < ({ s with burstCount := s.burstCount - (k : ℤ) } : toneBurst).burstCount := by
      push_cast at hk; simp; omega
    rw [nextState_pos_polar _ hpos hs]
    simp only [toneBurst.mk.injEq, and_true, true_and]
    push_cast
    omega

/-- C7: in polar mode (init(false) then reset()), every next() call while
bursts remain only decrements the remaining burst count: after k ≤ 72
steps the state is the reset state with burstCount 72−k, so nominalFreq
(and with it actualFreq, cyclesPerBurst and burstDurationSamples) is
unchanged across all 72 steps; it stays at the polar start frequency 1000. -/
theorem polar_frequency_constant (tb : toneBurst) (k : ℕ) (hk : k ≤ 72) :
    nextState^[k] (reset (init tb false)) =
        { reset (init tb false) with burstCount := 72 - (k : ℤ) } ∧
      (nextState^[k] (reset (init tb false))).nominalFreq = 1000 := by
  have hsw : (reset (init tb false)).sweep = false := rfl
  have hbc : (reset (init tb false)).burstCount = 72 := rfl
  have h1 := nextState_iterate_polar _ hsw k (by rw [hbc]; exact_mod_cast hk)
  rw [hbc] at h1
  refine ⟨h1, ?_⟩
  rw [h1]
  rfl

/-- Witness for C7 at the full 72 steps from the default object. -/
theorem polar_frequency_constant_witness :
    72 ≤ 72 ∧
      nextState^[72] (reset (init mkToneBurst false)) =
          { reset (init mkToneBurst false) with burstCount := 72 - (72 : ℤ) } ∧
      (nextState^[72] (reset (init mkToneBurst false))).nominalFreq = 1000 :=
  ⟨le_rfl, polar_frequency_constant mkToneBurst 72 le_rfl⟩

/-- The invariant claimed for cyclesPerBurst: it is the smallest positive
integer whose cycle count at the current nominal frequency lasts at least
minBurstSamples. -/
def minimalCycles (tb : toneBurst) : Prop :=
  0 < tb.numCycle ∧
    (tb.burstMin : ℝ) ≤ (tb.sampleRate : ℝ) / tb.nominalFreq * tb.numCycle ∧
    ∀ k : ℕ, 0 < k → (tb.burstMin : ℝ) ≤ (tb.sampleRate : ℝ) / tb.nominalFreq * k →
      tb.numCycle ≤ k

/-- calc() yields the minimal cycle count whenever its starting numCycle
is a lower bound for every admissible cycle count. -/
theorem calcStep_minimal (tb : toneBurst)
    (hrq : 0 < (tb.sampleRate : ℝ) / tb.nominalFreq) (hn : 0 < tb.numCycle)
    (hle : ∀ k : ℕ, 0 < k → (tb.burstMin : ℝ) ≤ (tb.sampleRate : ℝ) / tb.nominalFreq * k →
      tb.numCycle ≤ k) :
    minimalCycles (calcStep tb) := by
  have hkey := calcLoop_eq ((tb.sampleRate : ℝ) / tb.nominalFreq) (tb.burstMin : ℝ) hrq
    tb.numCycle
  have hsat := calcLoop_sat ((tb.sampleRate : ℝ) / tb.nominalFreq) (tb.burstMin : ℝ) hrq
    tb.numCycle
  unfold minimalCycles
  rw [calcStep_burstMin, calcStep_sampleRate, calcStep_nominalFreq, calcStep_numCycle]
  refine ⟨?_, ?_, ?_⟩
  · rw [hkey]; omega
  · linarith [hsat]
  · intro k hk hvalid
    have h1 : tb.numCycle ≤ k := hle k hk hvalid
    have h2 : ⌈(tb.burstMin : ℝ) / ((tb.sampleRate : ℝ) / tb.nominalFreq)⌉₊ ≤ k :=
      Nat.ceil_le.mpr ((div_le_iff₀ hrq).mpr (by rw [mul_comm]; exact hvalid))
    rw [hkey]
    omega

/-- C3 (amended): after reset() cyclesPerBurst is the smallest positive
integer with (sampleRate/nominalFrequency)·cyclesPerBurst ≥
minBurstSamples, and every next() preserves this invariant provided the
frequency ladder does not decrease (freqIncr ≥ 1, i.e. startFrequency ≤
stopFrequency).  For a decreasing ladder the invariant can break, because
calc() searches upward from the previous cycle count. -/
theorem cyclesPerBurst_minimal (tb : toneBurst) (hR : 0 < tb.sampleRate)
    (hs : 0 < tb.startFreq) :
    minimalCycles (reset tb) ∧
      ∀ s : toneBurst, 0 < s.sampleRate → 0 < s.nominalFreq → 1 ≤ s.freqIncr →
        minimalCycles s → minimalCycles (nextState s) := by
  have hRr : (0 : ℝ) < (tb.sampleRate : ℝ) := by exact_mod_cast hR
  constructor
  · rcases Bool.eq_false_or_eq_true tb.sweep with hsw | hsw
    · rw [reset_of_sweep tb hsw]
      exact calcStep_minimal _ (div_pos hRr hs) Nat.one_pos (fun k hk _ => hk)
    · rw [reset_of_polar tb hsw]
      exact calcStep_minimal _ (div_pos hRr hs) Nat.one_pos (fun k hk _ => hk)
  · intro s hR2 hf hincr hmin
    have hR2r : (0 : ℝ) < (s.sampleRate : ℝ) := by exact_mod_cast hR2
    unfold nextState
    by_cases hbc : 0 < s.burstCount
    · rcases Bool.eq_false_or_eq_true s.sweep with hsw | hsw
      · rw [next_pos_sweep s hbc hsw]
        have hf2 : 0 < s.nominalFreq * s.freqIncr :=
          mul_pos hf (lt_of_lt_of_le one_pos hincr)
        have hbase : minimalCycles
            (calcStep { s with nominalFreq := s.nominalFreq * s.freqIncr }) := by
          apply calcStep_minimal
          · exact div_pos hR2r hf2
          · exact hmin.1
          · intro k hk hvalid
            apply hmin.2.2 k hk
            have hle1 : s.nominalFreq ≤ s.nominalFreq * s.freqIncr :=
              le_mul_of_one_le_right (le_of_lt hf) hincr
            have hmono : (s.sampleRate : ℝ) / (s.nominalFreq * s.freqIncr) ≤
                (s.sampleRate : ℝ) / s.nominalFreq :=
              div_le_div_of_nonneg_left (le_of_lt hR2r) hf hle1
            have hk0 : (0 : ℝ) ≤ (k : ℝ) := Nat.cast_nonneg k
            calc (s.burstMin : ℝ)
                ≤ (s.sampleRate : ℝ) / (s.nominalFreq * s.freqIncr) * k := hvalid
              _ ≤ (s.sampleRate : ℝ) / s.nominalFreq * k :=
                  mul_le_mul_of_nonneg_right hmono hk0
        exact hbase
      · rw [next_pos_polar s hbc hsw]
        exact hmin
    · rw [next_nonpos s hbc]
      exact hmin

/-- Evaluation of the calc() search at the quotient 2 with bound 100. -/
theorem calcLoop_two : calcLoop 2 100 1 = 50 := by
  rw [calcLoop_eq 2 100 (by norm_num) 1]
  rw [show (100 : ℝ) / 2 = 50 by norm_num, Nat.ceil_ofNat]
  exact max_eq_right (by norm_num)

/-- Evaluation of the calc() search at the quotient 441 from start 50. -/
theorem calcLoop_441 : calcLoop 441 100 50 = 50 := by
  rw [calcLoop_eq 441 100 (by norm_num) 50]
  have h1 : ⌈(100 : ℝ) / 441⌉₊ ≤ 1 := Nat.ceil_le.mpr (by norm_num)
  omega

/-- Any state with numCycle 50, sampleRate 44100, burstMin 100 and
nominalFreq 100 comes out of calc() non-minimal: the search cannot come
back down to the admissible cycle count 1. -/
theorem calcStep_not_minimal_at_100 (s : toneBurst) (h1 : s.numCycle = 50)
    (h2 : s.sampleRate = 44100) (h3 : s.burstMin = 100) (h4 : s.nominalFreq = 100) :
    ¬ minimalCycles (calcStep s) := by
  intro hmin
  have hnum : (calcStep s).numCycle = 50 := by
    rw [calcStep_numCycle, h1, h2, h3, h4]
    norm_num
    exact calcLoop_441
  have hadm : ((calcStep s).burstMin : ℝ) ≤
      ((calcStep s).sampleRate : ℝ) / (calcStep s).nominalFreq * (1 : ℕ) := by
    rw [calcStep_burstMin, calcStep_sampleRate, calcStep_nominalFreq, h2, h3, h4]
    norm_num
  have hk := hmin.2.2 1 Nat.one_pos hadm
  rw [hnum] at hk
  omega

/-- Counterexample for C3 as stated: the claim quantifies over every
sequence of positive nominal frequencies, including decreasing ones.
Stepping the frequency ladder from 22050 (where calc() needs 50 cycles)
down to 100 leaves cyclesPerBurst at 50, while the smallest positive
admissible cycle count at 100 Hz is 1.  A decreasing ladder arises in a
real run whenever the user passes a startFrequency above 10000. -/
theorem cyclesPerBurst_minimal_counterexample :
    ¬ minimalCycles
        (calcStep { reset { mkToneBurst with startFreq := 22050 } with nominalFreq := 100 }) := by
  have hXnum : (reset { mkToneBurst with startFreq := 22050 }).numCycle = 50 := by
    rw [reset_of_sweep _ rfl, calcStep_numCycle]
    norm_num [mkToneBurst, SAMPLE_RATE, BURST_LENGTH]
    exact calcLoop_two
  exact calcStep_not_minimal_at_100 _ hXnum (by simp [mkToneBurst, SAMPLE_RATE])
    (by simp [mkToneBurst, BURST_LENGTH]) rfl

/-- Witness for C3 at the default sweep object: the reset state is
minimal, and the first next() step (freqIncr = 100^(1/200) ≥ 1)
preserves minimality. -/
theorem cyclesPerBurst_minimal_witness :
    0 < mkToneBurst.sampleRate ∧ 0 < mkToneBurst.startFreq ∧
      minimalCycles (reset mkToneBurst) ∧
      minimalCycles (nextState (reset mkToneBurst)) := by
  have h1 : 0 < mkToneBurst.sampleRate := by simp [mkToneBurst, SAMPLE_RATE]
  have h2 : 0 < mkToneBurst.startFreq := by simp [mkToneBurst]
  have hmain := cyclesPerBurst_minimal mkToneBurst h1 h2
  have h3 : 0 < (reset mkToneBurst).sampleRate := by
    rw [reset_sampleRate]; exact h1
  have h4 : 0 < (reset mkToneBurst).nominalFreq := by
    rw [reset_nominalFreq]; exact h2
  have h5 : 1 ≤ (reset mkToneBurst).freqIncr := by
    rw [reset_of_sweep mkToneBurst rfl, calcStep_freqIncr]
    have hb : (1 : ℝ) < 100 := by norm_num
    have hstep : ((100 : ℝ) ^ (0 : ℝ)) ≤ (100 : ℝ) ^ ((1 : ℝ) / 200) :=
      (Real.rpow_le_rpow_left_iff hb).mpr (by norm_num)
    rw [Real.rpow_zero] at hstep
    have hfield : ((10000 : ℝ) / mkToneBurst.startFreq) ^ ((1 : ℝ) / (201 - 1)) =
        (100 : ℝ) ^ ((1 : ℝ) / 200) := by
      norm_num [mkToneBurst]
    rw [hfield]
    exact hstep
  exact ⟨h1, h2, hmain.1, hmain.2 (reset mkToneBurst) h3 h4 h5 hmain.1⟩

/-- The burst loop emits one write()-worth of bytes per remaining burst. -/
theorem burstLoopBytes_eq : ∀ (n : ℕ) (tb : toneBurst), tb.burstCount.toNat = n →
    burstLoopBytes tb = n * (4 * tb.numAvg.toNat * tb.interval.toNat) := by
  intro n
  induction n with
  | zero =>
    intro tb h
    rw [burstLoopBytes]
    have hneg : ¬ 0 < tb.burstCount := by omega
    rw [dif_neg hneg]
    omega
  | succ k ih =>
    intro tb h
    rw [burstLoopBytes]
    have hpos : 0 < tb.burstCount := by omega
    rw [dif_pos hpos]
    have hbc : (nextState tb).burstCount = tb.burstCount - 1 := nextState_burstCount tb hpos
    rw [ih (nextState tb) (by omega)]
    rw [nextState_numAvg, nextState_interval]
    ring

/-- C10: for every generator run that reaches the burst loop (nonnegative
delay and averaging, as every meaningful invocation has), the bytes
written after the 44-byte header — 4 bytes per sample pair, delay silent
pairs plus interval·numAvg pairs per burst over numBurst bursts — equal
getSize(), which is exactly the value stored in the data chunk size
field. -/
theorem generator_bytes_match (tb : toneBurst) (hdel : 0 ≤ tb.delay) (havg : 0 ≤ tb.numAvg)
    (hiv : 0 ≤ tb.interval) (hnb : 0 ≤ tb.numBurst) :
    (genDataBytes tb : ℤ) = getSize tb ∧ dataChunkSize (getSize tb) = getSize tb := by
  refine ⟨?_, rfl⟩
  unfold genDataBytes
  rw [burstLoopBytes_eq (reset tb).burstCount.toNat (reset tb) rfl]
  rw [reset_burstCount, reset_numAvg, reset_interval]
  unfold getSize
  push_cast [Int.toNat_of_nonneg hdel, Int.toNat_of_nonneg havg, Int.toNat_of_nonneg hiv,
    Int.toNat_of_nonneg hnb]
  ring

/-- Witness for C10 at the default generator state. -/
theorem generator_bytes_match_witness :
    0 ≤ mkToneBurst.delay ∧ 0 ≤ mkToneBurst.numAvg ∧ 0 ≤ mkToneBurst.interval ∧
      0 ≤ mkToneBurst.numBurst ∧
      ((genDataBytes mkToneBurst : ℤ) = getSize mkToneBurst ∧
        dataChunkSize (getSize mkToneBurst) = getSize mkToneBurst) := by
  have h1 : 0 ≤ mkToneBurst.delay := by simp [mkToneBurst, INTERVAL]
  have h2 : 0 ≤ mkToneBurst.numAvg := by simp [mkToneBurst]
  have h3 : 0 ≤ mkToneBurst.interval := by simp [mkToneBurst, INTERVAL]
  have h4 : 0 ≤ mkToneBurst.numBurst := by simp [mkToneBurst]
  exact ⟨h1, h2, h3, h4, generator_bytes_match mkToneBurst h1 h2 h3 h4⟩

/-- A fold whose step keeps the first component fixed keeps it fixed. -/
theorem foldl_fst_eq {α β γ : Type} (f : α × β → γ → α × β)
    (hf : ∀ s c, (f s c).1 = s.1) : ∀ (l : List γ) (s : α × β), (l.foldl f s).1 = s.1 := by
  intro l
  induction l with
  | nil => intro s; rfl
  | cons c l ih => intro s; rw [List.foldl_cons, ih, hf]

/-- C9: toneBurst::write and toneBurst::read leave every data member of
the object unchanged — their loop bodies only build local accumulators
and perform stream transfer — so after either run the threaded object
state equals the starting state in all fields; only init, reset and next
mutate the stepping state. -/
theorem write_read_frame (tb : toneBurst) (input : ℕ → ℕ → ℤ × ℤ) :
    (writeRun tb).1 = tb ∧ (readRun tb input).1 = tb := by
  constructor
  · unfold writeRun
    exact foldl_fst_eq _ (fun s _ => foldl_fst_eq writeStep (fun _ _ => rfl) _ s) _ _
  · unfold readRun
    exact foldl_fst_eq _ (fun s i => foldl_fst_eq (readStep input i) (fun _ _ => rfl) _ s) _ _

/-- C4 (amended): the background sums accumulate exactly over the loop
indices j with interval−2·duration ≤ j < interval−duration, a window of
the same length as the signal window [0, duration); it is disjoint from
the signal window provided 3·duration ≤ interval (which holds throughout
every default-parameter run).  Without that proviso the windows can
overlap — see the counterexample. -/
theorem background_window (tb : toneBurst) (hd : 0 < tb.duration)
    (h3 : 3 * tb.duration ≤ tb.interval) :
    (∀ j : ℕ, j ∈ bgWindow tb ↔
        tb.interval - 2 * tb.duration ≤ (j : ℤ) ∧ (j : ℤ) < tb.interval - tb.duration) ∧
      (bgWindow tb).card = (sigWindow tb).card ∧
      Disjoint (bgWindow tb) (sigWindow tb) := by
  have hmem : ∀ j : ℕ, j ∈ bgWindow tb ↔
      tb.interval - 2 * tb.duration ≤ (j : ℤ) ∧ (j : ℤ) < tb.interval - tb.duration := by
    intro j
    unfold bgWindow
    rw [Finset.mem_filter, Finset.mem_range]
    constructor
    · rintro ⟨-, h1, h2⟩; exact ⟨h2, h1⟩
    · rintro ⟨h1, h2⟩
      refine ⟨by omega, h2, h1⟩
  have hsigmem : ∀ j : ℕ, j ∈ sigWindow tb ↔ j < tb.duration.toNat := by
    intro j
    unfold sigWindow
    rw [Finset.mem_filter, Finset.mem_range]
    omega
  refine ⟨hmem, ?_, ?_⟩
  · have hbg : bgWindow tb = Finset.Ico (tb.interval - 2 * tb.duration).toNat
        (tb.interval - tb.duration).toNat := by
      ext j
      rw [hmem j, Finset.mem_Ico]
      omega
    have hsig : sigWindow tb = Finset.range tb.duration.toNat := by
      ext j
      rw [hsigmem j, Finset.mem_range]
    rw [hbg, hsig, Nat.card_Ico, Finset.card_range]
    omega
  · rw [Finset.disjoint_left]
    intro j hj1 hj2
    rw [hmem j] at hj1
    rw [hsigmem j] at hj2
    omega

/-- The first sweep burst of the default object: 1 cycle of 441 samples. -/
theorem reset_mk_numCycle : (reset mkToneBurst).numCycle = 1 := by
  rw [reset_of_sweep mkToneBurst rfl, calcStep_numCycle]
  norm_num [mkToneBurst, SAMPLE_RATE, BURST_LENGTH]
  rw [calcLoop_eq _ _ (by norm_num) _]
  have h1 : ⌈(100 : ℝ) / 441⌉₊ ≤ 1 :=
    Nat.ceil_le.mpr (by norm_num)
  omega

theorem reset_mk_duration : (reset mkToneBurst).duration = 441 := by
  have hn := reset_mk_numCycle
  rw [reset_of_sweep mkToneBurst rfl] at hn ⊢
  rw [calcStep_duration, hn]
  norm_num [mkToneBurst, SAMPLE_RATE]
  rw [show (441 : ℝ) = ((441 : ℤ) : ℝ) by norm_num, intTrunc_intCast]

/-- Witness for C4 at the first burst of a default sweep run. -/
theorem background_window_witness :
    0 < (reset mkToneBurst).duration ∧
      3 * (reset mkToneBurst).duration ≤ (reset mkToneBurst).interval ∧
      ((bgWindow (reset mkToneBurst)).card = (sigWindow (reset mkToneBurst)).card ∧
        Disjoint (bgWindow (reset mkToneBurst)) (sigWindow (reset mkToneBurst))) := by
  have hd : 0 < (reset mkToneBurst).duration := by rw [reset_mk_duration]; norm_num
  have h3 : 3 * (reset mkToneBurst).duration ≤ (reset mkToneBurst).interval := by
    rw [reset_mk_duration, reset_interval]
    simp [mkToneBurst, INTERVAL]
  exact ⟨hd, h3, (background_window (reset mkToneBurst) hd h3).2⟩

/-- Counterexample for the disjointness part of C4 as stated: with the
user-selectable startFrequency 5 the first burst lasts 8820 samples, and
index 4410 lies in both the background window [4410, 13230) and the
signal window [0, 8820). -/
theorem background_window_counterexample :
    (reset { mkToneBurst with startFreq := 5 }).duration = 8820 ∧
      (reset { mkToneBurst with startFreq := 5 }).interval = 22050 ∧
      ¬ Disjoint (bgWindow (reset { mkToneBurst with startFreq := 5 }))
        (sigWindow (reset { mkToneBurst with startFreq := 5 })) := by
  have hnum : (reset { mkToneBurst with startFreq := 5 }).numCycle = 1 := by
    rw [reset_of_sweep _ rfl, calcStep_numCycle]
    norm_num [mkToneBurst, SAMPLE_RATE, BURST_LENGTH]
    rw [calcLoop_eq _ _ (by norm_num) _]
    have h1 : ⌈(100 : ℝ) / 8820⌉₊ ≤ 1 := Nat.ceil_le.mpr (by norm_num)
    omega
  have hdur : (reset { mkToneBurst with startFreq := 5 }).duration = 8820 := by
    rw [reset_of_sweep _ rfl] at hnum ⊢
    rw [calcStep_duration, hnum]
    norm_num [mkToneBurst, SAMPLE_RATE]
    rw [show (8820 : ℝ) = ((8820 : ℤ) : ℝ) by norm_num, intTrunc_intCast]
  have hiv : (reset { mkToneBurst with startFreq := 5 }).interval = 22050 := by
    simp [mkToneBurst, INTERVAL]
  refine ⟨hdur, hiv, ?_⟩
  rw [Finset.not_disjoint_iff]
  refine ⟨4410, ?_, ?_⟩
  · unfold bgWindow
    rw [Finset.mem_filter, Finset.mem_range, hdur, hiv]
    norm_num
  · unfold sigWindow
    rw [Finset.mem_filter, Finset.mem_range, hdur, hiv]
    norm_num

/-- The sweep frequency ladder from the default object is geometric in
the step ratio (10000/100)^(1/200), with the step counter descending. -/
theorem sweep_iterate (k : ℕ) (hk : k ≤ 201) :
    (nextState^[k] (reset mkToneBurst)).nominalFreq =
        100 * (((10000 : ℝ) / 100) ^ ((1 : ℝ) / 200)) ^ k ∧
      (nextState^[k] (reset mkToneBurst)).burstCount = 201 - (k : ℤ) ∧
      (nextState^[k] (reset mkToneBurst)).sweep = true ∧
      (nextState^[k] (reset mkToneBurst)).freqIncr =
        ((10000 : ℝ) / 100) ^ ((1 : ℝ) / 200) := by
  have hfreqIncr : (reset mkToneBurst).freqIncr = ((10000 : ℝ) / 100) ^ ((1 : ℝ) / 200) := by
    rw [reset_of_sweep mkToneBurst rfl, calcStep_freqIncr]
    norm_num [mkToneBurst]
  induction k with
  | zero =>
    simp only [Function.iterate_zero, id_eq, pow_zero, mul_one, Nat.cast_zero, sub_zero]
    refine ⟨?_, ?_, rfl, hfreqIncr⟩
    · rw [reset_nominalFreq]; simp [mkToneBurst]
    · rw [reset_burstCount]; simp [mkToneBurst]
  | succ k ih =>
    obtain ⟨hf, hbc, hsw, hinc⟩ := ih (by omega)
    have hpos : 0 < (nextState^[k] (reset mkToneBurst)).burstCount := by
      rw [hbc]; omega
    rw [Function.iterate_succ_apply']
    have hstep : nextState (nextState^[k] (reset mkToneBurst)) =
        { calcStep { nextState^[k] (reset mkToneBurst) with
            nominalFreq := (nextState^[k] (reset mkToneBurst)).nominalFreq *
              (nextState^[k] (reset mkToneBurst)).freqIncr } with
          burstCount := (nextState^[k] (reset mkToneBurst)).burstCount - 1 } := by
      rw [nextState, next_pos_sweep _ hpos hsw]
    rw [hstep]
    refine ⟨?_, ?_, ?_, ?_⟩
    · show (nextState^[k] (reset mkToneBurst)).nominalFreq *
        (nextState^[k] (reset mkToneBurst)).freqIncr = _
      rw [hf, hinc]
      ring
    · show (nextState^[k] (reset mkToneBurst)).burstCount - 1 = _
      rw [hbc]
      push_cast
      ring
    · show (nextState^[k] (reset mkToneBurst)).sweep = true
      exact hsw
    · show (nextState^[k] (reset mkToneBurst)).freqIncr = _
      exact hinc

/-- C6: in sweep mode from the default start frequency 100, the nominal
frequency after k next() steps equals 100·((10000/100)^(1/200))^k — a
geometric sequence in the step ratio — and after 200 steps it is exactly
10000 in the real-number model of the double arithmetic. -/
theorem sweep_geometric (k : ℕ) (hk : k ≤ 200) :
    (nextState^[k] (reset mkToneBurst)).nominalFreq =
        100 * (((10000 : ℝ) / 100) ^ ((1 : ℝ) / 200)) ^ k ∧
      (nextState^[200] (reset mkToneBurst)).nominalFreq = 10000 := by
  refine ⟨(sweep_iterate k (by omega)).1, ?_⟩
  rw [(sweep_iterate 200 (by omega)).1]
  rw [show ((10000 : ℝ) / 100) = 100 by norm_num]
  rw [← Real.rpow_natCast ((100 : ℝ) ^ ((1 : ℝ) / 200)) 200]
  rw [← Real.rpow_mul (by norm_num : (0 : ℝ) ≤ 100)]
  norm_num

/-- Witness for C6 at the final step k = 200. -/
theorem sweep_geometric_witness :
    200 ≤ 200 ∧ (nextState^[200] (reset mkToneBurst)).nominalFreq = 10000 :=
  ⟨le_rfl, (sweep_geometric 200 le_rfl).2⟩

/-! Helper lemmas for the round-trip analysis of write() followed by
read(): collapsing the guarded interval sum to the burst window, sums of
roots of unity, and the exponential form of the synthesized cosines. -/

/-- The guard j < duration collapses the interval sum to the burst

window. -/
theorem sum_range_if (N D : ℕ) (hDN : D ≤ N) (f : ℕ → ℂ) :
    (∑ j in Finset.range N, if (j : ℤ) < (D : ℤ) then f j else 0) =
      ∑ j in Finset.range D, f j := by
  have h1 : (∑ j in Finset.range D, (if (j : ℤ) < (D : ℤ) then f j else 0)) =
      ∑ j in Finset.range N, (if (j : ℤ) < (D : ℤ) then f j else 0) := by
    apply Finset.sum_subset (Finset.range_subset.mpr hDN)
    intro j hjN hjD
    rw [Finset.mem_range] at hjD
    rw [if_neg (by exact_mod_cast hjD)]
  rw [← h1]
  apply Finset.sum_congr rfl
  intro j hj
  rw [Finset.mem_range] at hj
  rw [if_pos (by exact_mod_cast hj)]

/-- A d-th root of unity other than 1 sums to zero over range d. -/
theorem geom_sum_root (z : ℂ) (d : ℕ) (hz1 : z ≠ 1) (hzd : z ^ d = 1) :
    ∑ j in Finset.range d, z ^ j = 0 := by
  rw [geom_sum_eq hz1, hzd]
  simp

/-- exp(2πi·k/d) is a d-th root of unity. -/
theorem exp_ratio_pow (k : ℤ) (d : ℕ) (hd : 0 < d) :
    Complex.exp (2 * (Real.pi : ℂ) * Complex.I * (k : ℂ) / (d : ℂ)) ^ d = 1 := by
  have hdne : (d : ℂ) ≠ 0 := Nat.cast_ne_zero.mpr (by omega)
  rw [← Complex.exp_nat_mul]
  rw [show (d : ℂ) * (2 * (Real.pi : ℂ) * Complex.I * (k : ℂ) / (d : ℂ)) =
      (k : ℂ) * (2 * (Real.pi : ℂ) * Complex.I) by field_simp; ring]
  exact Complex.exp_int_mul_two_pi_mul_I k

/-- exp(2πi·k/d) equals 1 exactly when d divides k. -/
theorem exp_ratio_eq_one_iff (k : ℤ) (d : ℕ) (hd : 0 < d) :
    Complex.exp (2 * (Real.pi : ℂ) * Complex.I * (k : ℂ) / (d : ℂ)) = 1 ↔ (d : ℤ) ∣ k := by
  have hdne : (d : ℂ) ≠ 0 := Nat.cast_ne_zero.mpr (by omega)
  have hpi : (Real.pi : ℂ) ≠ 0 := Complex.ofReal_ne_zero.mpr Real.pi_ne_zero
  have h2pI : (2 * (Real.pi : ℂ) * Complex.I) ≠ 0 := by
    apply mul_ne_zero (mul_ne_zero two_ne_zero hpi) Complex.I_ne_zero
  rw [Complex.exp_eq_one_iff]
  constructor
  · rintro ⟨n, hn⟩
    have hn' : 2 * (Real.pi : ℂ) * Complex.I * ((k : ℂ) / (d : ℂ)) =
        2 * (Real.pi : ℂ) * Complex.I * (n : ℂ) := by
      linear_combination hn
    have hkey : (k : ℂ) / (d : ℂ) = (n : ℂ) := mul_left_cancel₀ h2pI hn'
    rw [div_eq_iff hdne] at hkey
    have hcast : k = n * (d : ℤ) := by exact_mod_cast hkey
    exact ⟨n, by rw [hcast]; ring⟩
  · rintro ⟨n, hn⟩
    refine ⟨n, ?_⟩
    rw [hn]
    push_cast
    field_simp
    ring

/-- The real cosine as an average of two complex exponentials. -/
theorem cos_to_exp (x : ℝ) : ((Real.cos x : ℝ) : ℂ) =
    (Complex.exp (Complex.I * (x : ℂ)) + Complex.exp (-(Complex.I * (x : ℂ)))) / 2 := by
  rw [Complex.ofReal_cos]
  rw [show Complex.I * (x : ℂ) = (x : ℂ) * Complex.I by ring, Complex.exp_mul_I]
  rw [show -((x : ℂ) * Complex.I) = (-(x : ℂ)) * Complex.I by ring, Complex.exp_mul_I]
  rw [Complex.cos_neg, Complex.sin_neg]
  ring

/-- Cosine at integer multiples of π alternates sign. -/
theorem cos_pi_nat (j : ℕ) : Real.cos (Real.pi * j) = (-1) ^ j := by
  induction j with
  | zero => simp
  | succ n ih =>
    rw [show Real.pi * ((n + 1 : ℕ) : ℝ) = Real.pi * n + Real.pi by push_cast; ring]
    rw [Real.cos_add_pi, ih]
    ring

/-- Cosine at integer multiples of 2π is 1. -/
theorem cos_two_pi_nat (j : ℕ) : Real.cos (2 * Real.pi * j) = 1 := by
  rw [show (2 * Real.pi * (j : ℝ)) = (j : ℝ) * (2 * Real.pi) by ring]
  exact Real.cos_nat_mul_two_pi j

/-- The exact single-frequency correlation of the unquantized burst
waveform (cos(ωj) − cos(2ωj))·AMPLITUDE over one burst of d samples at
ω = 2πc/d: when d divides none of c, 2c, 3c, every alias term is a full
sum of a nontrivial d-th root of unity and vanishes, leaving
AMPLITUDE·d/2. -/
theorem ideal_sum (c d : ℕ) (hd : 0 < d)
    (h1 : ¬ ((d : ℤ) ∣ (c : ℤ))) (h2 : ¬ ((d : ℤ) ∣ 2 * (c : ℤ)))
    (h3 : ¬ ((d : ℤ) ∣ 3 * (c : ℤ))) :
    ∑ j in Finset.range d,
        (((Real.cos (2 * Real.pi * c / d * j) -
            Real.cos (2 * (2 * Real.pi * c / d) * j)) * AMPLITUDE : ℝ) : ℂ) *
          Complex.exp (Complex.I * ((2 * Real.pi * c / d : ℝ) : ℂ) * (j : ℂ)) =
      (AMPLITUDE : ℂ) * d / 2 := by
  set ω : ℝ := 2 * Real.pi * c / d with hω
  set u : ℂ := Complex.exp (2 * (Real.pi : ℂ) * Complex.I * (c : ℂ) / (d : ℂ)) with hu_def
  have hune : u ≠ 0 := Complex.exp_ne_zero _
  have hE : ∀ j : ℕ, Complex.exp (Complex.I * ((ω : ℝ) : ℂ) * (j : ℂ)) = u ^ j := by
    intro j
    rw [hu_def, ← Complex.exp_nat_mul]
    congr 1
    rw [hω]
    push_cast
    ring
  have hC1 : ∀ j : ℕ, ((Real.cos (ω * j) : ℝ) : ℂ) = (u ^ j + (u ^ j)⁻¹) / 2 := by
    intro j
    rw [cos_to_exp (ω * j)]
    rw [show Complex.I * ((ω * j : ℝ) : ℂ) = Complex.I * ((ω : ℝ) : ℂ) * (j : ℂ) by
      push_cast; ring]
    rw [Complex.exp_neg, hE j]
  have hC2 : ∀ j : ℕ, ((Real.cos (2 * ω * j) : ℝ) : ℂ) = ((u ^ j) ^ 2 + ((u ^ j) ^ 2)⁻¹) / 2 := by
    intro j
    rw [cos_to_exp (2 * ω * j)]
    rw [show Complex.I * ((2 * ω * j : ℝ) : ℂ) =
        ((2 : ℕ) : ℂ) * (Complex.I * ((ω : ℝ) : ℂ) * (j : ℂ)) by push_cast; ring]
    rw [Complex.exp_neg, Complex.exp_nat_mul, hE j]
  have hud : u ^ d = 1 := by
    rw [hu_def, show ((c : ℕ) : ℂ) = (((c : ℕ) : ℤ) : ℂ) by push_cast; ring]
    exact exp_ratio_pow (c : ℤ) d hd
  have hu2 : u ^ 2 = Complex.exp
      (2 * (Real.pi : ℂ) * Complex.I * ((2 * (c : ℤ) : ℤ) : ℂ) / (d : ℂ)) := by
    rw [hu_def, ← Complex.exp_nat_mul]
    congr 1
    push_cast
    ring
  have hu3 : u ^ 3 = Complex.exp
      (2 * (Real.pi : ℂ) * Complex.I * ((3 * (c : ℤ) : ℤ) : ℂ) / (d : ℂ)) := by
    rw [hu_def, ← Complex.exp_nat_mul]
    congr 1
    push_cast
    ring
  have huinv : u⁻¹ = Complex.exp
      (2 * (Real.pi : ℂ) * Complex.I * ((-(c : ℤ) : ℤ) : ℂ) / (d : ℂ)) := by
    rw [hu_def, ← Complex.exp_neg]
    congr 1
    push_cast
    ring
  have hterm : ∀ j ∈ Finset.range d,
      (((Real.cos (ω * j) - Real.cos (2 * ω * j)) * AMPLITUDE : ℝ) : ℂ) *
          Complex.exp (Complex.I * ((ω : ℝ) : ℂ) * (j : ℂ)) =
        (AMPLITUDE : ℂ) / 2 * ((u ^ 2) ^ j + 1 - (u ^ 3) ^ j - u⁻¹ ^ j) := by
    intro j _
    have hup : u ^ j ≠ 0 := pow_ne_zero _ hune
    rw [Complex.ofReal_mul, Complex.ofReal_sub, hC1 j, hC2 j, hE j]
    rw [show (u ^ 2) ^ j = (u ^ j) ^ 2 by rw [← pow_mul, ← pow_mul, Nat.mul_comm]]
    rw [show (u ^ 3) ^ j = (u ^ j) ^ 3 by rw [← pow_mul, ← pow_mul, Nat.mul_comm]]
    rw [show u⁻¹ ^ j = (u ^ j)⁻¹ by rw [inv_pow]]
    field_simp
    ring
  rw [Finset.sum_congr rfl hterm, ← Finset.mul_sum]
  have hsum2 : ∑ j in Finset.range d, (u ^ 2) ^ j = 0 :=
    geom_sum_root _ _ (by rw [hu2, Ne, exp_ratio_eq_one_iff _ d hd]; exact h2)
      (by rw [← pow_mul, Nat.mul_comm, pow_mul, hud]; norm_num)
  have hsum3 : ∑ j in Finset.range d, (u ^ 3) ^ j = 0 :=
    geom_sum_root _ _ (by rw [hu3, Ne, exp_ratio_eq_one_iff _ d hd]; exact h3)
      (by rw [← pow_mul, Nat.mul_comm, pow_mul, hud]; norm_num)
  have hsuminv : ∑ j in Finset.range d, u⁻¹ ^ j = 0 :=
    geom_sum_root _ _
      (by rw [huinv, Ne, exp_ratio_eq_one_iff _ d hd, Int.dvd_neg]; exact h1)
      (by rw [inv_pow, hud]; norm_num)
  rw [Finset.sum_sub_distrib, Finset.sum_sub_distrib, Finset.sum_add_distrib,
    hsum2, hsum3, hsuminv, Finset.sum_const, Finset.card_range]
  simp only [zero_add, sub_zero, nsmul_eq_mul, mul_one]
  ring

/-- Every correlation coefficient lies on the unit circle. -/
theorem ccoeff_abs (tb : toneBurst) (j : ℕ) : Complex.abs (ccoeff tb j) = 1 := by
  unfold ccoeff
  rw [show Complex.I * ((tb.factor : ℝ) : ℂ) * (j : ℂ) =
      ((tb.factor * j : ℝ) : ℂ) * Complex.I by push_cast; ring]
  exact Complex.abs_exp_ofReal_mul_I _

/-- The total 16-bit truncation error of a correlated burst is at most
one unit per sample. -/
theorem err_sum_bound (d : ℕ) (g : ℕ → ℝ) (E : ℕ → ℂ)
    (hE : ∀ j, Complex.abs (E j) = 1) :
    Complex.abs (∑ j in Finset.range d,
        ((((intTrunc (g j) : ℤ) : ℝ) - g j : ℝ) : ℂ) * E j) ≤ d := by
  have hstep : ∀ j ∈ Finset.range d,
      Complex.abs (((((intTrunc (g j) : ℤ) : ℝ) - g j : ℝ) : ℂ) * E j) ≤ 1 := by
    intro j _
    rw [map_mul, hE j, mul_one, Complex.abs_ofReal]
    exact abs_intTrunc_sub_le (g j)
  calc Complex.abs (∑ j in Finset.range d,
        ((((intTrunc (g j) : ℤ) : ℝ) - g j : ℝ) : ℂ) * E j)
      ≤ ∑ j in Finset.range d,
        Complex.abs (((((intTrunc (g j) : ℤ) : ℝ) - g j : ℝ) : ℂ) * E j) :=
        Complex.abs.sum_le _ _
    _ ≤ ∑ _j in Finset.range d, (1 : ℝ) := Finset.sum_le_sum hstep
    _ = d := by rw [Finset.sum_const, Finset.card_range]; simp

/-- Correlating one quantized synthesized burst of d samples lands within
d of the ideal value AMPLITUDE·d/2. -/
theorem corr_sum_near (tb : toneBurst) (c d : ℕ) (hd : 0 < d)
    (hdur : tb.duration = (d : ℤ)) (hfac : tb.factor = 2 * Real.pi * c / d)
    (h1 : ¬ ((d : ℤ) ∣ (c : ℤ))) (h2 : ¬ ((d : ℤ) ∣ 2 * (c : ℤ)))
    (h3 : ¬ ((d : ℤ) ∣ 3 * (c : ℤ))) :
    Complex.abs ((∑ j in Finset.range d, ((burstSample tb j : ℤ) : ℂ) * ccoeff tb j) -
      (AMPLITUDE : ℂ) * d / 2) ≤ d := by
  have hsplit : (∑ j in Finset.range d, ((burstSample tb j : ℤ) : ℂ) * ccoeff tb j) =
      (∑ j in Finset.range d,
        (((Real.cos (2 * Real.pi * c / d * j) -
            Real.cos (2 * (2 * Real.pi * c / d) * j)) * AMPLITUDE : ℝ) : ℂ) * ccoeff tb j) +
      ∑ j in Finset.range d,
        ((((intTrunc ((Real.cos (2 * Real.pi * c / d * j) -
            Real.cos (2 * (2 * Real.pi * c / d) * j)) * AMPLITUDE) : ℤ) : ℝ) -
          (Real.cos (2 * Real.pi * c / d * j) -
            Real.cos (2 * (2 * Real.pi * c / d) * j)) * AMPLITUDE : ℝ) : ℂ) * ccoeff tb j := by
    rw [← Finset.sum_add_distrib]
    apply Finset.sum_congr rfl
    intro j hj
    rw [Finset.mem_range] at hj
    unfold burstSample
    rw [if_pos (by rw [hdur]; exact_mod_cast hj), hfac]
    push_cast
    ring
  have hcc : ∀ j : ℕ, ccoeff tb j =
      Complex.exp (Complex.I * ((2 * Real.pi * c / d : ℝ) : ℂ) * (j : ℂ)) := by
    intro j
    unfold ccoeff
    rw [hfac]
  have hideal : (∑ j in Finset.range d,
      (((Real.cos (2 * Real.pi * c / d * j) -
          Real.cos (2 * (2 * Real.pi * c / d) * j)) * AMPLITUDE : ℝ) : ℂ) * ccoeff tb j) =
      (AMPLITUDE : ℂ) * d / 2 := by
    simp only [hcc]
    exact ideal_sum c d hd h1 h2 h3
  rw [hsplit, hideal, add_sub_cancel_left]
  exact err_sum_bound d
    (fun j => (Real.cos (2 * Real.pi * c / d * j) -
      Real.cos (2 * (2 * Real.pi * c / d) * j)) * AMPLITUDE) (ccoeff tb) (ccoeff_abs tb)

/-- C1 (amended): for a synchronized generator/analyzer pair (same
parameters, zero relative delay) and a burst whose quantized shape (c
cycles in d samples) does not alias — d divides none of c, 2c, 3c — the
reported magnitude of both channels is 1.0 up to the worst-case 16-bit
truncation error 1/6000, and the reported phase difference between the
two identically synthesized channels is exactly 0.  The aliasing proviso
is necessary: see the counterexample at start frequency 22050. -/
theorem roundtrip_magnitude (tb : toneBurst) (c d : ℕ) (hd : 0 < d)
    (hdur : tb.duration = (d : ℤ)) (hfac : tb.factor = 2 * Real.pi * c / d)
    (hiv : tb.duration ≤ tb.interval) (hA : 0 < tb.numAvg)
    (h1 : ¬ ((d : ℤ) ∣ (c : ℤ))) (h2 : ¬ ((d : ℤ) ∣ 2 * (c : ℤ)))
    (h3 : ¬ ((d : ℤ) ∣ 3 * (c : ℤ))) :
    |Complex.abs (readSum1 tb (writeOutput tb)) - 1| ≤ 1 / 6000 ∧
      |Complex.abs (readSum2 tb (writeOutput tb)) - 1| ≤ 1 / 6000 ∧
      Complex.arg (readSum1 tb (writeOutput tb)) -
        Complex.arg (readSum2 tb (writeOutput tb)) = 0 := by
  have hch : readSum2 tb (writeOutput tb) = readSum1 tb (writeOutput tb) := rfl
  set S : ℂ := ∑ j in Finset.range d, ((burstSample tb j : ℤ) : ℂ) * ccoeff tb j with hS
  set na : ℕ := tb.numAvg.toNat with hna
  have hnaZ : (tb.numAvg : ℤ) = (na : ℤ) := by rw [hna]; omega
  have hnapos : 0 < na := by omega
  have hDN : d ≤ tb.interval.toNat := by omega
  have hraw : readSum1raw tb (writeOutput tb) = (na : ℂ) * S := by
    unfold readSum1raw
    have hinner : ∀ i : ℕ, (∑ j in Finset.range tb.interval.toNat,
        if (j : ℤ) < tb.duration then
          (((writeOutput tb i j).1 : ℤ) : ℂ) * ccoeff tb j else 0) = S := by
      intro i
      rw [hdur]
      exact sum_range_if tb.interval.toNat d hDN _
    rw [Finset.sum_congr rfl fun i _ => hinner i, Finset.sum_const, Finset.card_range,
      nsmul_eq_mul]
  have hN : normFactor tb = (na : ℝ) * ((d : ℝ) * 6000) := by
    unfold normFactor AMPLITUDE
    rw [hdur, hnaZ]
    push_cast
    ring
  have hkey : readSum1 tb (writeOutput tb) - 1 =
      ((na : ℂ) * (S - (AMPLITUDE : ℂ) * d / 2)) / ((normFactor tb : ℝ) : ℂ) := by
    have hnaC : ((na : ℕ) : ℂ) ≠ 0 := Nat.cast_ne_zero.mpr (by omega)
    have hdC : ((d : ℕ) : ℂ) ≠ 0 := Nat.cast_ne_zero.mpr (by omega)
    unfold readSum1
    rw [hraw, hN]
    unfold AMPLITUDE
    push_cast
    field_simp
    ring
  have hbound : Complex.abs (readSum1 tb (writeOutput tb) - 1) ≤ 1 / 6000 := by
    rw [hkey, map_div₀, map_mul]
    have ha1 : Complex.abs ((na : ℂ)) = (na : ℝ) := by
      rw [show ((na : ℕ) : ℂ) = (((na : ℕ) : ℝ) : ℂ) by push_cast; ring, Complex.abs_ofReal]
      exact abs_of_nonneg (Nat.cast_nonneg na)
    have ha2 : Complex.abs (((normFactor tb : ℝ)) : ℂ) = normFactor tb := by
      rw [Complex.abs_ofReal]
      exact abs_of_nonneg (by rw [hN]; positivity)
    have hcorr := corr_sum_near tb c d hd hdur hfac h1 h2 h3
    rw [← hS] at hcorr
    rw [ha1, ha2, hN]
    rw [div_le_div_iff₀ (by positivity) (by norm_num)]
    have hnar : (0 : ℝ) ≤ (na : ℝ) := Nat.cast_nonneg na
    calc (na : ℝ) * Complex.abs (S - (AMPLITUDE : ℂ) * d / 2) * 6000
        ≤ (na : ℝ) * (d : ℝ) * 6000 := by
          have hm := mul_le_mul_of_nonneg_left hcorr hnar
          nlinarith [hm]
      _ = 1 * ((na : ℝ) * ((d : ℝ) * 6000)) := by ring
  have hmag : |Complex.abs (readSum1 tb (writeOutput tb)) - 1| ≤ 1 / 6000 := by
    calc |Complex.abs (readSum1 tb (writeOutput tb)) - 1|
        = |‖readSum1 tb (writeOutput tb)‖ - ‖(1 : ℂ)‖| := by
          rw [Complex.norm_eq_abs, norm_one]
      _ ≤ ‖readSum1 tb (writeOutput tb) - 1‖ := abs_norm_sub_norm_le _ _
      _ = Complex.abs (readSum1 tb (writeOutput tb) - 1) := Complex.norm_eq_abs _
      _ ≤ 1 / 6000 := hbound
  exact ⟨hmag, by rw [hch]; exact hmag, by rw [hch, sub_self]⟩

/-- The angular step factor reset() leaves behind, in terms of the
recomputed actual frequency. -/
theorem reset_factor (tb : toneBurst) : (reset tb).factor =
    2 * Real.pi * (reset tb).actualFreq / (tb.sampleRate : ℝ) := by
  rcases Bool.eq_false_or_eq_true tb.sweep with h | h
  · rw [reset_of_sweep tb h]
    exact calcStep_factor _
  · rw [reset_of_polar tb h]
    exact calcStep_factor _

/-- The actual frequency reset() leaves behind. -/
theorem reset_actualFreq (tb : toneBurst) : (reset tb).actualFreq =
    1 * (tb.sampleRate : ℝ) * (reset tb).numCycle / (reset tb).duration := by
  rcases Bool.eq_false_or_eq_true tb.sweep with h | h
  · rw [reset_of_sweep tb h]
    exact calcStep_actualFreq _
  · rw [reset_of_polar tb h]
    exact calcStep_actualFreq _

theorem reset_mk_actualFreq : (reset mkToneBurst).actualFreq = 100 := by
  rw [reset_actualFreq, reset_mk_numCycle, reset_mk_duration]
  norm_num [mkToneBurst, SAMPLE_RATE]

theorem reset_mk_factor :
    (reset mkToneBurst).factor = 2 * Real.pi * ((1 : ℕ) : ℝ) / ((441 : ℕ) : ℝ) := by
  rw [reset_factor, reset_mk_actualFreq]
  norm_num [mkToneBurst, SAMPLE_RATE]
  field_simp
  ring

/-- Witness for C1 at the first burst of the default sweep run: 1 cycle
in 441 samples, no aliasing. -/
theorem roundtrip_magnitude_witness :
    (reset mkToneBurst).duration = ((441 : ℕ) : ℤ) ∧
      (reset mkToneBurst).factor = 2 * Real.pi * ((1 : ℕ) : ℝ) / ((441 : ℕ) : ℝ) ∧
      (reset mkToneBurst).duration ≤ (reset mkToneBurst).interval ∧
      0 < (reset mkToneBurst).numAvg ∧
      (|Complex.abs (readSum1 (reset mkToneBurst) (writeOutput (reset mkToneBurst))) - 1|
          ≤ 1 / 6000 ∧
        |Complex.abs (readSum2 (reset mkToneBurst) (writeOutput (reset mkToneBurst))) - 1|
          ≤ 1 / 6000 ∧
        Complex.arg (readSum1 (reset mkToneBurst) (writeOutput (reset mkToneBurst))) -
          Complex.arg (readSum2 (reset mkToneBurst) (writeOutput (reset mkToneBurst))) = 0) := by
  have hdur : (reset mkToneBurst).duration = ((441 : ℕ) : ℤ) := by
    rw [reset_mk_duration]; norm_num
  have hfac := reset_mk_factor
  have hiv : (reset mkToneBurst).duration ≤ (reset mkToneBurst).interval := by
    rw [reset_mk_duration, reset_interval]
    simp [mkToneBurst, INTERVAL]
  have hA : 0 < (reset mkToneBurst).numAvg := by
    rw [reset_numAvg]
    simp [mkToneBurst]
  exact ⟨hdur, hfac, hiv, hA,
    roundtrip_magnitude (reset mkToneBurst) 1 441 (by norm_num) hdur hfac hiv hA
      (by norm_num) (by norm_num) (by norm_num)⟩

/-- Counterexample for C1 as stated: at the user-selectable start
frequency 22050 the first burst has 50 cycles in 100 samples (factor π,
the Nyquist rate), the second-harmonic alias d ∣ 2c is active, and the
analyzer reports channel magnitude exactly 2 instead of approximately
1. -/
theorem roundtrip_magnitude_counterexample :
    Complex.abs (readSum1 (reset { mkToneBurst with startFreq := 22050 })
      (writeOutput (reset { mkToneBurst with startFreq := 22050 }))) = 2 := by
  set tbX := reset { mkToneBurst with startFreq := 22050 } with htbX
  have hXnum : tbX.numCycle = 50 := by
    rw [htbX, reset_of_sweep _ rfl, calcStep_numCycle]
    norm_num [mkToneBurst, SAMPLE_RATE, BURST_LENGTH]
    exact calcLoop_two
  have hXdur : tbX.duration = 100 := by
    rw [htbX, reset_of_sweep _ rfl] at hXnum ⊢
    rw [calcStep_duration, hXnum]
    norm_num [mkToneBurst, SAMPLE_RATE]
    rw [show (100 : ℝ) = ((100 : ℤ) : ℝ) by norm_num, intTrunc_intCast]
  have hXact : tbX.actualFreq = 22050 := by
    rw [htbX, reset_actualFreq, ← htbX, hXnum, hXdur]
    norm_num [mkToneBurst, SAMPLE_RATE]
  have hXfac : tbX.factor = Real.pi := by
    rw [htbX, reset_factor, ← htbX, hXact]
    norm_num [mkToneBurst, SAMPLE_RATE]
    field_simp
    ring
  have hXiv : tbX.interval = 22050 := by
    rw [htbX, reset_interval]
    simp [mkToneBurst, INTERVAL]
  have hXna : tbX.numAvg = 1 := by
    rw [htbX, reset_numAvg]
    simp [mkToneBurst]
  have hterm : ∀ j ∈ Finset.range 100, ((burstSample tbX j : ℤ) : ℂ) * ccoeff tbX j =
      12000 * (1 - (-1 : ℂ) ^ j) := by
    intro j hj
    rw [Finset.mem_range] at hj
    have hbs : burstSample tbX j = ((-1 : ℤ) ^ j - 1) * 12000 := by
      unfold burstSample
      rw [if_pos (by rw [hXdur]; exact_mod_cast hj), hXfac]
      rw [show ((Real.cos (Real.pi * j) - Real.cos (2 * Real.pi * j)) * AMPLITUDE : ℝ) =
          ((((-1 : ℤ) ^ j - 1) * 12000 : ℤ) : ℝ) by
        rw [cos_pi_nat, cos_two_pi_nat]
        unfold AMPLITUDE
        push_cast
        ring]
      exact intTrunc_intCast _
    have hcc : ccoeff tbX j = (-1 : ℂ) ^ j := by
      unfold ccoeff
      rw [hXfac]
      rw [show Complex.I * ((Real.pi : ℝ) : ℂ) * (j : ℂ) =
          (j : ℂ) * ((Real.pi : ℂ) * Complex.I) by ring]
      rw [Complex.exp_nat_mul, Complex.exp_pi_mul_I]
    rw [hbs, hcc]
    have hsq : (-1 : ℂ) ^ j * (-1 : ℂ) ^ j = 1 := by
      rw [← mul_pow]
      norm_num
    push_cast
    linear_combination (12000 : ℂ) * hsq
  have hS : (∑ j in Finset.range 100, ((burstSample tbX j : ℤ) : ℂ) * ccoeff tbX j) =
      1200000 := by
    rw [Finset.sum_congr rfl hterm, ← Finset.mul_sum]
    rw [Finset.sum_sub_distrib, Finset.sum_const, Finset.card_range, neg_one_geom_sum]
    rw [if_pos (by decide : Even 100)]
    norm_num
  have hraw : readSum1raw tbX (writeOutput tbX) = 1200000 := by
    unfold readSum1raw
    rw [hXna, hXiv]
    norm_num
    rw [show Int.toNat 22050 = 22050 from rfl, hXdur]
    rw [show (100 : ℤ) = ((100 : ℕ) : ℤ) by norm_num]
    rw [sum_range_if 22050 100 (by norm_num) _]
    exact hS
  have hNX : normFactor tbX = 600000 := by
    unfold normFactor AMPLITUDE
    rw [hXdur, hXna]
    norm_num
  unfold readSum1
  rw [hraw, hNX]
  rw [show ((1200000 : ℂ) / ((600000 : ℝ) : ℂ)) = 2 by push_cast; norm_num]
  exact Complex.abs_two

end DipoleMic
